import Mathlib

/-!
Verification of the audio alignment / concatenation engine of the
Video_translation repository (`code/audio_align/run_align_concat_audio.py`).

The embedding below translates the source program into Lean:

* Python floats are modelled as exact rationals (`ℚ`); sample counts and
  indices as `ℕ`/`ℤ`.
* A JSONL record (a Python dict) is modelled as an association list from
  string keys to `PyVal` values.  `PyVal.int`/`PyVal.float` cover Python
  ints (including bools) and floats; `PyVal.numstr q` covers strings that
  `float()` parses as the number `q`; `PyVal.other` covers every value on
  which `float()` raises (`None`, non-numeric strings, lists, dicts, ...).
* Fallible Python code (exceptions) is modelled with `Option`/`Except`:
  `Except.error` corresponds to an uncaught exception propagating out of
  `main`.
* The external capabilities of the script — the clip loader
  (`Path.exists` + `librosa.load` on `seg_{idx:04d}.mp3`) and the stretch
  primitive (`librosa.effects.time_stretch`) — are parameters collected in
  `Env`.  `ClipResult.missing` models a non-existent file,
  `ClipResult.failed` models `librosa.load` raising on an unreadable /
  corrupt file, `ClipResult.ok` a successfully decoded mono buffer
  (already at the target sample rate, as `librosa.load(..., sr=sr)` does).
* NumPy slice assignment `track[a:b] = vals` is modelled by `setSlice`,
  including Python's negative-index normalisation and the `ValueError`
  raised when the value's length does not match the slice's length.
-/

namespace AlignConcat

/-- Model of a Python/JSON scalar value as used by the script.  `int n`
covers Python ints and bools, `float q` Python floats, `numstr q` strings
that `float()` parses as `q`, and `other` every value `float()` rejects. -/
inductive PyVal where
  | int (n : ℤ)
  | float (q : ℚ)
  | numstr (q : ℚ)
  | other
deriving DecidableEq, Repr

/-- A JSONL record (Python dict) as an association list, first match wins. -/
abbrev Record := List (String × PyVal)

/-- Dict key lookup (`seg[k]` / `k in seg` / `seg.get(k)`). -/
def findKey : Record → String → Option PyVal
  | [], _ => none
  | (k, v) :: rest, key => if k = key then some v else findKey rest key

/-- Python `float(v)`: succeeds on ints, floats and numeric strings,
raises (returns `none`) otherwise. -/
def pyFloat : PyVal → Option ℚ
  | .int n => some (n : ℚ)
  | .float q => some q
  | .numstr q => some q
  | .other => none

/-- Python dict assignment `seg[key] = v`: replaces the value of an
existing key in place, otherwise appends the new key at the end
(dicts preserve insertion order). -/
def setKey : Record → String → PyVal → Record
  | [], key, v => [(key, v)]
  | (k, w) :: rest, key, v =>
      if k = key then (key, v) :: rest else (k, w) :: setKey rest key v

/-- Embedding of `get_slot_times` (run_align_concat_audio.py lines 82-88):
return `(float(seg["start_sec"]), float(seg["end_sec"]))` when both keys
are present, else `(float(seg["start"]), float(seg["end"]))` when both are
present, else raise.  A `none` result models the raised exception
(`KeyError`, or `ValueError`/`TypeError` from `float()`). -/
def get_slot_times (seg : Record) : Option (ℚ × ℚ) :=
  match findKey seg "start_sec", findKey seg "end_sec" with
  | some v1, some v2 =>
      match pyFloat v1, pyFloat v2 with
      | some a, some b => some (a, b)
      | _, _ => none
  | _, _ =>
      match findKey seg "start", findKey seg "end" with
      | some v1, some v2 =>
          match pyFloat v1, pyFloat v2 with
          | some a, some b => some (a, b)
          | _, _ => none
      | _, _ => none

/-- Parse a pair of optional dict values with `float()`;
used to state properties of `get_slot_times`. -/
def pyFloat2 : Option PyVal → Option PyVal → Option (ℚ × ℚ)
  | some v1, some v2 =>
      match pyFloat v1, pyFloat v2 with
      | some a, some b => some (a, b)
      | _, _ => none
  | _, _ => none

/-- Whether both keys of a key convention are present (`k1 in seg and k2 in seg`). -/
def hasKeys (seg : Record) (k1 k2 : String) : Bool :=
  (findKey seg k1).isSome && (findKey seg k2).isSome

/-- Python's `round` on a float: round half to even (banker's rounding),
yielding an int. -/
def pyRound (x : ℚ) : ℤ :=
  let f := Int.floor x
  let r := x - (f : ℚ)
  if r < 1/2 then f
  else if 1/2 < r then f + 1
  else if f % 2 = 0 then f else f + 1

/-- One iteration of the record loop (lines 131-136): extract the times and
store the helper fields `_start_sec`, `_end_sec`, `_duration_sec` on the
record itself (the source mutates the caller's dict).  `none` models the
exception from `get_slot_times` propagating. -/
def processRecord (seg : Record) : Option Record :=
  (get_slot_times seg).map fun p =>
    setKey (setKey (setKey seg "_start_sec" (.float p.1))
        "_end_sec" (.float p.2))
      "_duration_sec" (.float (max 0 (p.2 - p.1)))

/-- The record loop of lines 130-136 over the whole list. -/
def mutateAll : List Record → Option (List Record)
  | [] => some []
  | seg :: rest =>
      match processRecord seg, mutateAll rest with
      | some seg2, some rest2 => some (seg2 :: rest2)
      | _, _ => none

/-- Optional truncation (lines 125-127): `all_segments[:max_segments]`
when `--max_segments` was given (modelled for non-negative N). -/
def pyTruncate (l : List Record) : Option ℕ → List Record
  | none => l
  | some n => l.take n

/-- Sort key of line 137, `lambda x: x["_start_sec"]`.  On every record the
pipeline sorts, the field is present and holds a float; other shapes are
mapped to a default as they are unreachable there. -/
def startKey (seg : Record) : ℚ :=
  match findKey seg "_start_sec" with
  | some v => (pyFloat v).getD 0
  | none => 0

/-- Stable insertion of a record into a list sorted by `startKey`:
the record is placed after every strictly smaller key and before the
first key that is not strictly smaller (so before equal keys coming
from later input positions). -/
def insertByStart (x : Record) : List Record → List Record
  | [] => [x]
  | y :: ys =>
      if startKey y < startKey x then y :: insertByStart x ys
      else x :: y :: ys

/-- Embedding of `processed.sort(key=lambda x: x["_start_sec"])` (line 137):
Python's `list.sort` is a stable sort by the key; any stable sort is
extensionally identical, we use stable insertion sort. -/
def pySortByStart : List Record → List Record
  | [] => []
  | x :: xs => insertByStart x (pySortByStart xs)

/-- Lines 125-137 combined: truncate, add time fields, sort.  This is the
processing sequence the assembly loop iterates over. -/
def processedSeq (maxSeg : Option ℕ) (inputs : List Record) :
    Option (List Record) :=
  (mutateAll (pyTruncate inputs maxSeg)).map pySortByStart

/-- Result of resolving `seg_{idx:04d}.mp3`: the file may not exist
(`missing`), `librosa.load` may raise on it (`failed`), or decoding may
succeed with a mono float buffer (`ok`). -/
inductive ClipResult where
  | missing
  | failed
  | ok (samples : List ℚ)
deriving DecidableEq

/-- The external capabilities the script invokes: the keyed clip loader and
`librosa.effects.time_stretch` (an opaque numeric primitive; only the rate
passed to it is the engine's responsibility). -/
structure Env where
  lookup : ℤ → ClipResult
  stretch : List ℚ → ℚ → List ℚ

/-- Crop or tail-pad a buffer to exactly `n` samples (lines 184-188 and
199-203): `audio[:slot_len]` when long enough, else
`np.pad(audio, (0, pad))` with zeros. -/
def cropPad (buf : List ℚ) (n : ℕ) : List ℚ :=
  if n ≤ buf.length then buf.take n
  else buf ++ List.replicate (n - buf.length) 0

/-- The stretch decision of lines 172-180:
`rel_diff > max_rel_stretch and abs(diff_sec) > max_abs_stretch` with
`diff_sec = slot_duration - cur_dur` and
`rel_diff = abs(diff_sec) / max(slot_duration, 1e-6)`. -/
def needStretch (slotDur curDur mrs mas : ℚ) : Bool :=
  let diff := slotDur - curDur
  let rel := |diff| / max slotDur (1/1000000)
  decide (mrs < rel) && decide (mas < |diff|)

/-- `np.clip(x, lo, hi)` for scalars. -/
def npClip (x lo hi : ℚ) : ℚ := min (max x lo) hi

/-- The rate handed to `librosa.effects.time_stretch` (lines 192-194):
`np.clip(cur_dur / slot_duration, 0.7, 1.3)`. -/
def appliedRate (curDur slotDur : ℚ) : ℚ :=
  npClip (curDur / slotDur) (7/10) (13/10)

/-- Lines 172-203: align one decoded clip to its slot.  Either plain
crop/pad, or stretch at the clamped rate followed by crop/pad. -/
def alignClip (env : Env) (audio : List ℚ) (slotDur : ℚ) (slotLen : ℕ)
    (sr : ℕ) (mrs mas : ℚ) : List ℚ :=
  let curDur : ℚ := (audio.length : ℚ) / (sr : ℚ)
  if needStretch slotDur curDur mrs mas then
    cropPad (env.stretch audio (appliedRate curDur slotDur)) slotLen
  else
    cropPad audio slotLen

/-- Normalise a Python slice endpoint for a sequence of length `len`:
negative indices count from the end, and endpoints are clamped to
`[0, len]`. -/
def pyNormIdx (len : ℕ) (i : ℤ) : ℕ :=
  if i < 0 then ((len : ℤ) + i).toNat
  else min i.toNat len

/-- Python `l[:k]` for a possibly negative `k` (line 207). -/
def pySliceTo (l : List ℚ) (k : ℤ) : List ℚ :=
  l.take (pyNormIdx l.length k)

/-- NumPy slice assignment `track[a:b] = vals` (line 208): writes `vals`
over the normalised index range, raising `ValueError` (`none`) when the
lengths do not match.  The array's length is never changed. -/
def setSlice (track : List ℚ) (a b : ℤ) (vals : List ℚ) :
    Option (List ℚ) :=
  let na := pyNormIdx track.length a
  let nb := pyNormIdx track.length b
  if vals.length = nb - na then
    some (track.take na ++ vals ++ track.drop (na + vals.length))
  else none

/-- Read a float field set by the record loop (`seg["_start_sec"]` etc.):
raises `KeyError` when absent, and a non-number would fail in the ensuing
arithmetic. -/
def getFloatField (seg : Record) (k : String) : Except String ℚ :=
  match findKey seg k with
  | some (.int n) => .ok (n : ℚ)
  | some (.float q) => .ok q
  | some _ => .error "TypeError"
  | none => .error "KeyError"

/-- The clip-lookup key of lines 143 and 154:
`idx = seg.get("index", i)` followed by the `f"seg_{idx:04d}.mp3"` format.
The `:04d` format accepts only ints (raising for floats and strings), so
the key resolves to an integer or the run aborts. -/
def clipKeyUsed (seg : Record) (i : ℕ) : Except String ℤ :=
  match findKey seg "index" with
  | none => .ok (i : ℤ)
  | some (.int n) => .ok n
  | some _ => .error "ValueError: format"

/-- The per-slot computation of lines 142-207 up to (but excluding) the
track write: `.ok none` is a `continue` (degenerate slot, missing file,
empty clip), `.ok (some (start_sample, end_pos, buf))` is a pending write
of `buf` at `[start_sample, end_pos)`, `.error` is an uncaught exception. -/
def slotPlan (env : Env) (sr T : ℕ) (mrs mas : ℚ) (i : ℕ) (seg : Record) :
    Except String (Option (ℤ × ℤ × List ℚ)) :=
  match getFloatField seg "_start_sec", getFloatField seg "_end_sec",
      getFloatField seg "_duration_sec" with
  | .ok startSec, .ok endSec, .ok slotDur =>
      let startSample := pyRound (startSec * (sr : ℚ))
      let endSample := pyRound (endSec * (sr : ℚ))
      if endSample ≤ startSample then .ok none
      else
        let slotLen := (endSample - startSample).toNat
        match clipKeyUsed seg i with
        | .error e => .error e
        | .ok key =>
            match env.lookup key with
            | .missing => .ok none
            | .failed => .error "ClipDecodeFailure"
            | .ok audio =>
                if audio.length = 0 then .ok none
                else
                  let aligned := alignClip env audio slotDur slotLen sr mrs mas
                  let endPos := min (startSample + (slotLen : ℤ)) (T : ℤ)
                  .ok (some (startSample, endPos,
                    pySliceTo aligned (endPos - startSample)))
  | .error e, _, _ => .error e
  | _, .error e, _ => .error e
  | _, _, .error e => .error e

/-- One full iteration of the assembly loop: the per-slot plan followed by
the track write `track[start_sample:end_pos] = aligned` of line 208. -/
def processSlot (env : Env) (sr T : ℕ) (mrs mas : ℚ) (track : List ℚ)
    (i : ℕ) (seg : Record) : Except String (List ℚ) :=
  match slotPlan env sr T mrs mas i seg with
  | .error e => .error e
  | .ok none => .ok track
  | .ok (some (a, b, v)) =>
      match setSlice track a b v with
      | some t2 => .ok t2
      | none => .error "ValueError: could not broadcast"

/-- The assembly loop of lines 142-208,
`for i, seg in enumerate(processed, start=1)`. -/
def assembleLoop (env : Env) (sr T : ℕ) (mrs mas : ℚ) :
    List ℚ → ℕ → List Record → Except String (List ℚ)
  | track, _, [] => .ok track
  | track, i, seg :: rest =>
      match processSlot env sr T mrs mas track i seg with
      | .error e => .error e
      | .ok t2 => assembleLoop env sr T mrs mas t2 (i + 1) rest

/-- The assembly loop over an explicitly position-tagged slot list; used to
state that `assembleLoop`'s counter is exactly the 1-based position of the
slot in the processed sequence. -/
def assembleEnum (env : Env) (sr T : ℕ) (mrs mas : ℚ) :
    List ℚ → List (ℕ × Record) → Except String (List ℚ)
  | track, [] => .ok track
  | track, (i, seg) :: rest =>
      match processSlot env sr T mrs mas track i seg with
      | .error e => .error e
      | .ok t2 => assembleEnum env sr T mrs mas t2 rest

/-- Defensive finalisation of lines 210-215: truncate or zero-pad the
track to exactly `total_samples`. -/
def finalize (track : List ℚ) (T : ℕ) : List ℚ :=
  if T < track.length then track.take T
  else if track.length < T then
    track ++ List.replicate (T - track.length) 0
  else track

/-- End-to-end run of `main` from the loaded record list on: truncation,
time-field extraction, sorting, zero-filled allocation of the master
track, the assembly loop with 1-based enumeration, and finalisation.
`T` is `total_samples`; `.error` models an uncaught exception aborting
the run. -/
def runMain (env : Env) (sr T : ℕ) (mrs mas : ℚ) (maxSeg : Option ℕ)
    (inputs : List Record) : Except String (List ℚ) :=
  match processedSeq maxSeg inputs with
  | none => .error "KeyError: unrecognizable start/end time keys"
  | some processed =>
      match assembleLoop env sr T mrs mas (List.replicate T 0) 1 processed with
      | .error e => .error e
      | .ok t => .ok (finalize t T)

/-- The half-open index range a pending write covers on a track of length
`T`; a skipped slot covers nothing. -/
def writeInterval (T : ℕ) : Option (ℤ × ℤ × List ℚ) → ℕ × ℕ
  | none => (0, 0)
  | some (a, _, v) => (pyNormIdx T a, pyNormIdx T a + v.length)

/-- A pending write touches sample position `pos`. -/
def writesAt (T : ℕ) (pl : Option (ℤ × ℤ × List ℚ)) (pos : ℕ) : Prop :=
  (writeInterval T pl).1 ≤ pos ∧ pos < (writeInterval T pl).2

instance (T : ℕ) (pl : Option (ℤ × ℤ × List ℚ)) (pos : ℕ) :
    Decidable (writesAt T pl pos) := by
  unfold writesAt; infer_instance

/-- Whether an `Except` computation completed without an exception. -/
def isOkB : Except String (List ℚ) → Bool
  | .ok _ => true
  | .error _ => false

/-- Spec wording of the stretch decision (§4.2 step 3): stretch only if
both `rel > max_rel_stretch` and `|diff| > max_abs_stretch`. -/
def specNeedStretch (slotDur curDur mrs mas : ℚ) : Prop :=
  mrs < |slotDur - curDur| / max slotDur (1/1000000) ∧
    mas < |slotDur - curDur|

/-- Spec wording of claim C7: truncation to the first N slots is a pure
prefix operation applied after sorting by start time (the N
earliest-starting slots of the full input). -/
def specSortThenTruncate (inputs : List Record) (n : ℕ) :
    Option (List Record) :=
  (mutateAll inputs).map (fun l => (pySortByStart l).take n)

/-- Record well-formedness used by the graceful-degradation theorem: the
`index` field, if present, is an int (so the `:04d` format succeeds). -/
def intIndexOk (seg : Record) : Prop :=
  findKey seg "index" = none ∨ ∃ n : ℤ, findKey seg "index" = some (.int n)

/-- The slot's start sample falls inside the track, so that the NumPy
slice write cannot raise. -/
def startInRange (sr T : ℕ) (seg : Record) : Prop :=
  ∀ s e, get_slot_times seg = some (s, e) →
    0 ≤ pyRound (s * (sr : ℚ)) ∧ pyRound (s * (sr : ℚ)) ≤ (T : ℤ)

/-- Per-slot facts under which one loop iteration cannot raise: the helper
time fields are present as numbers (with the start sample inside the
track) and the `index` field, if any, is an int.  The record loop
establishes the field shape for every record it processed. -/
def slotOk (sr T : ℕ) (seg : Record) : Prop :=
  (∃ s, getFloatField seg "_start_sec" = .ok s ∧
    0 ≤ pyRound (s * (sr : ℚ)) ∧ pyRound (s * (sr : ℚ)) ≤ (T : ℤ))
  ∧ (∃ e, getFloatField seg "_end_sec" = .ok e)
  ∧ (∃ d, getFloatField seg "_duration_sec" = .ok d)
  ∧ intIndexOk seg

/-- Environment with no clips at all. -/
def envEmpty : Env :=
  { lookup := fun _ => .missing, stretch := fun a _ => a }

/-- Environment where every clip file exists but decoding raises. -/
def envFail : Env :=
  { lookup := fun _ => .failed, stretch := fun a _ => a }

/-- Environment with two decodable clips, for the overlap scenario. -/
def envTwo : Env :=
  { lookup := fun k =>
      if k = 1 then .ok [1, 1, 1, 1]
      else if k = 2 then .ok [2, 2, 2, 2]
      else .missing,
    stretch := fun a _ => a }

/-- A slot record [0s, 4s) carrying clip index 1. -/
def recA : Record := [("start", .int 0), ("end", .int 4), ("index", .int 1)]

/-- A slot record [2s, 6s) carrying clip index 2; overlaps `recA`. -/
def recB : Record := [("start", .int 2), ("end", .int 6), ("index", .int 2)]

/-- A processed (time-field-carrying) record for the overlap scenario. -/
def recW1 : Record :=
  [("_start_sec", .float 0), ("_end_sec", .float 4),
   ("_duration_sec", .float 4), ("index", .int 1)]

/-- Second processed record of the overlap scenario, window [2,6). -/
def recW2 : Record :=
  [("_start_sec", .float 2), ("_end_sec", .float 6),
   ("_duration_sec", .float 4), ("index", .int 2)]

/-- A late-starting record (start 5) appearing first in input order. -/
def recC7a : Record := [("start_sec", .int 5), ("end_sec", .int 6)]

/-- An early-starting record (start 1) appearing second in input order. -/
def recC7b : Record := [("start_sec", .int 1), ("end_sec", .int 2)]

/-- The two-record input list on which truncation order is observable. -/
def c7Inputs : List Record := [recC7a, recC7b]

/-- What the record loop turns `recC7a` into. -/
def recC7aAug : Record :=
  [("start_sec", .int 5), ("end_sec", .int 6), ("_start_sec", .float 5),
   ("_end_sec", .float 6), ("_duration_sec", .float 1)]

/-- What the record loop turns `recC7b` into. -/
def recC7bAug : Record :=
  [("start_sec", .int 1), ("end_sec", .int 2), ("_start_sec", .float 1),
   ("_end_sec", .float 2), ("_duration_sec", .float 1)]

/-- A minimal input record without helper fields. -/
def recC8 : Record := [("start", .int 0), ("end", .int 1)]

/-- The same record after the record loop mutated it. -/
def recC8Aug : Record :=
  [("start", .int 0), ("end", .int 1), ("_start_sec", .float 0),
   ("_end_sec", .float 1), ("_duration_sec", .float 1)]

/-- A record using the plain key convention with a numeric-string end. -/
def recC9 : Record := [("start", .int 2), ("end", .numstr 3)]

end AlignConcat

namespace AlignConcat

/-! Helper lemmas. -/

theorem finalize_length (track : List ℚ) (T : ℕ) :
    (finalize track T).length = T := by
  unfold finalize
  split
  · simp; omega
  · split
    · simp; omega
    · omega

theorem cropPad_length (buf : List ℚ) (n : ℕ) : (cropPad buf n).length = n := by
  unfold cropPad
  split
  · simp; omega
  · simp; omega

theorem alignClip_length (env : Env) (audio : List ℚ) (slotDur : ℚ)
    (slotLen sr : ℕ) (mrs mas : ℚ) :
    (alignClip env audio slotDur slotLen sr mrs mas).length = slotLen := by
  have h : alignClip env audio slotDur slotLen sr mrs mas =
      if needStretch slotDur ((audio.length : ℚ) / (sr : ℚ)) mrs mas then
        cropPad (env.stretch audio
          (appliedRate ((audio.length : ℚ) / (sr : ℚ)) slotDur)) slotLen
      else cropPad audio slotLen := rfl
  rw [h]
  split <;> exact cropPad_length _ _

/-! Claim C1. -/

/-- C1: every run of the assembly that completes returns a master track of
length exactly `total_samples`, for any slot set: the track is allocated
zero-filled at `total_samples` and finalisation truncates or zero-pads to
that exact length. -/
theorem assembly_returns_total_samples (env : Env) (sr T : ℕ) (mrs mas : ℚ)
    (maxSeg : Option ℕ) (inputs : List Record) (t : List ℚ)
    (h : runMain env sr T mrs mas maxSeg inputs = .ok t) : t.length = T := by
  unfold runMain at h
  split at h
  · exact Except.noConfusion h
  · split at h
    · exact Except.noConfusion h
    · injection h with h
      rw [← h]
      exact finalize_length _ _

/-- Witness for C1: a concrete completing run over the empty slot set on a
three-sample track returns exactly three samples. -/
theorem assembly_returns_total_samples_witness :
    (List.replicate 3 (0 : ℚ)).length = 3 :=
  assembly_returns_total_samples envEmpty 1 3 (2/10) (4/10) none []
    (List.replicate 3 0) rfl

/-! Claim C3. -/

/-- C3: the code's stretch decision coincides with the spec formula — with
`cur_dur = clip_len / sample_rate`, stretching happens iff both
`rel > max_rel_stretch` and `|diff| > max_abs_stretch` (conjunction); when
the conjunction fails the clip is only cropped or padded, never handed to
the stretch primitive. -/
theorem stretch_decision_conjunction (env : Env) (audio : List ℚ)
    (slotDur : ℚ) (slotLen sr : ℕ) (mrs mas : ℚ) :
    (needStretch slotDur ((audio.length : ℚ) / (sr : ℚ)) mrs mas = true ↔
      specNeedStretch slotDur ((audio.length : ℚ) / (sr : ℚ)) mrs mas)
    ∧ (needStretch slotDur ((audio.length : ℚ) / (sr : ℚ)) mrs mas = false →
        alignClip env audio slotDur slotLen sr mrs mas = cropPad audio slotLen) := by
  constructor
  · simp [needStretch, specNeedStretch]
  · intro h
    simp only [alignClip, h, Bool.false_eq_true, if_false]

/-- Witness for C3: a clip exactly matching its slot (no stretch) is only
cropped/padded. -/
theorem stretch_decision_conjunction_witness :
    alignClip envEmpty [1] 1 1 1 (2/10) (4/10) = cropPad [1] 1 :=
  (stretch_decision_conjunction envEmpty [1] 1 1 1 (2/10) (4/10)).2
    (by norm_num [needStretch])

/-! Claim C4. -/

/-- C4: on the stretch path the rate handed to the stretch primitive is
`cur_dur / slot_duration` clamped into `[0.7, 1.3]`; it always lies within
the bounds and equals the nearer bound when the raw ratio is outside. -/
theorem stretch_rate_clamped (env : Env) (audio : List ℚ) (slotDur : ℚ)
    (slotLen sr : ℕ) (mrs mas : ℚ)
    (h : needStretch slotDur ((audio.length : ℚ) / (sr : ℚ)) mrs mas = true) :
    alignClip env audio slotDur slotLen sr mrs mas =
      cropPad (env.stretch audio
        (appliedRate ((audio.length : ℚ) / (sr : ℚ)) slotDur)) slotLen
    ∧ 7/10 ≤ appliedRate ((audio.length : ℚ) / (sr : ℚ)) slotDur
    ∧ appliedRate ((audio.length : ℚ) / (sr : ℚ)) slotDur ≤ 13/10
    ∧ (((audio.length : ℚ) / (sr : ℚ)) / slotDur < 7/10 →
        appliedRate ((audio.length : ℚ) / (sr : ℚ)) slotDur = 7/10)
    ∧ (13/10 < ((audio.length : ℚ) / (sr : ℚ)) / slotDur →
        appliedRate ((audio.length : ℚ) / (sr : ℚ)) slotDur = 13/10) := by
  refine ⟨by simp only [alignClip, h, if_true], ?_, ?_, ?_, ?_⟩
  · exact le_min (le_max_right _ _) (by norm_num)
  · exact min_le_right _ _
  · intro hr
    unfold appliedRate npClip
    rw [max_eq_right hr.le, min_eq_left (by norm_num)]
  · intro hr
    unfold appliedRate npClip
    rw [max_eq_left ((by norm_num : (7:ℚ)/10 ≤ 13/10).trans hr.le),
      min_eq_right hr.le]

/-- Witness for C4: a clip five times longer than its slot (raw ratio 5)
is stretched at exactly the upper clamp bound 1.3. -/
theorem stretch_rate_clamped_witness :
    appliedRate ((([2, 2, 2, 2, 2] : List ℚ).length : ℚ) / ((1 : ℕ) : ℚ)) 1
      = 13/10 :=
  (stretch_rate_clamped envTwo [2, 2, 2, 2, 2] 1 9 1 (2/10) (4/10)
    (by norm_num [needStretch])).2.2.2.2 (by norm_num)

/-! Claim C5. -/

/-- C5: on the no-stretch path the aligned buffer is an exact crop or
tail-pad of the clip — the clip's first `slot_len` samples when the clip
is long enough, else the clip followed by zeros — and its first
`min(clip_len, slot_len)` samples are bitwise equal to the clip's
prefix. -/
theorem no_stretch_crop_pad (env : Env) (audio : List ℚ) (slotDur : ℚ)
    (slotLen sr : ℕ) (mrs mas : ℚ)
    (h : needStretch slotDur ((audio.length : ℚ) / (sr : ℚ)) mrs mas = false) :
    (slotLen ≤ audio.length →
      alignClip env audio slotDur slotLen sr mrs mas = audio.take slotLen)
    ∧ (audio.length < slotLen →
      alignClip env audio slotDur slotLen sr mrs mas =
        audio ++ List.replicate (slotLen - audio.length) 0)
    ∧ (alignClip env audio slotDur slotLen sr mrs mas).take
          (min audio.length slotLen)
        = audio.take (min audio.length slotLen) := by
  have hal : alignClip env audio slotDur slotLen sr mrs mas
      = cropPad audio slotLen := by
    simp only [alignClip, h, Bool.false_eq_true, if_false]
  refine ⟨?_, ?_, ?_⟩
  · intro hle
    rw [hal]; unfold cropPad; rw [if_pos hle]
  · intro hlt
    rw [hal]; unfold cropPad; rw [if_neg (by omega)]
  · rw [hal]; unfold cropPad
    split
    · rename_i hle
      rw [min_eq_right hle, List.take_take, min_self]
    · rename_i hgt
      rw [min_eq_left (by omega), List.take_append_of_le_length (le_refl _)]

/-- Witness for C5: a three-sample clip in a two-sample slot is truncated
to the clip's first two samples. -/
theorem no_stretch_crop_pad_witness :
    alignClip envEmpty [1, 2, 3] 3 2 1 (2/10) (4/10) = [1, 2, 3].take 2 :=
  (no_stretch_crop_pad envEmpty [1, 2, 3] 3 2 1 (2/10) (4/10)
    (by norm_num [needStretch])).1 (by decide)

/-! Claim C9. -/

theorem get_slot_times_eq (seg : Record) :
    get_slot_times seg =
      if hasKeys seg "start_sec" "end_sec" then
        pyFloat2 (findKey seg "start_sec") (findKey seg "end_sec")
      else if hasKeys seg "start" "end" then
        pyFloat2 (findKey seg "start") (findKey seg "end")
      else none := by
  cases h1 : findKey seg "start_sec" <;> cases h2 : findKey seg "end_sec" <;>
    cases h3 : findKey seg "start" <;> cases h4 : findKey seg "end" <;>
      simp [get_slot_times, hasKeys, pyFloat2, h1, h2, h3, h4]

/-- C9: `get_slot_times` returns the float-parsed `(start, end)` pair from
`start_sec`/`end_sec` when both keys are present, otherwise from
`start`/`end` when both are present, and raises exactly when neither pair
is fully present or a value of the selected pair does not parse as a
number. -/
theorem get_slot_times_spec (seg : Record) :
    (hasKeys seg "start_sec" "end_sec" = true →
      get_slot_times seg =
        pyFloat2 (findKey seg "start_sec") (findKey seg "end_sec"))
    ∧ (hasKeys seg "start_sec" "end_sec" = false →
        hasKeys seg "start" "end" = true →
      get_slot_times seg = pyFloat2 (findKey seg "start") (findKey seg "end"))
    ∧ (get_slot_times seg = none ↔
        (hasKeys seg "start_sec" "end_sec" = false ∧
          hasKeys seg "start" "end" = false)
        ∨ (hasKeys seg "start_sec" "end_sec" = true ∧
            pyFloat2 (findKey seg "start_sec") (findKey seg "end_sec") = none)
        ∨ (hasKeys seg "start_sec" "end_sec" = false ∧
            hasKeys seg "start" "end" = true ∧
            pyFloat2 (findKey seg "start") (findKey seg "end") = none)) := by
  have he := get_slot_times_eq seg
  refine ⟨?_, ?_, ?_⟩
  · intro h; rw [he]; simp [h]
  · intro h h2; rw [he]; simp [h, h2]
  · rw [he]
    cases hk1 : hasKeys seg "start_sec" "end_sec" <;>
      cases hk2 : hasKeys seg "start" "end" <;> simp

/-- Witness for C9: a record with only the plain `start`/`end` keys, the
end being the numeric string "3", parses through the second convention. -/
theorem get_slot_times_spec_witness :
    get_slot_times recC9 = pyFloat2 (findKey recC9 "start") (findKey recC9 "end") :=
  (get_slot_times_spec recC9).2.1 (by decide) (by decide)

end AlignConcat

namespace AlignConcat

/-! Helpers for the enumeration of the assembly loop. -/

theorem assembleLoop_eq_enum (env : Env) (sr T : ℕ) (mrs mas : ℚ)
    (t0 : List ℚ) (i0 : ℕ) (segs : List Record) :
    assembleLoop env sr T mrs mas t0 i0 segs =
      assembleEnum env sr T mrs mas t0 (List.enumFrom i0 segs) := by
  induction segs generalizing t0 i0 with
  | nil => rfl
  | cons x xs ih =>
      cases h : processSlot env sr T mrs mas t0 i0 x with
      | error e => simp [assembleLoop, assembleEnum, List.enumFrom, h]
      | ok t2 => simp [assembleLoop, assembleEnum, List.enumFrom, h, ih]

theorem enumFrom_getElem (n : ℕ) (l : List Record) (j : ℕ) (hj : j < l.length) :
    (List.enumFrom n l)[j]? = some (n + j, l.get ⟨j, hj⟩) := by
  induction l generalizing n j with
  | nil => exact absurd hj (by simp)
  | cons x xs ih =>
      cases j with
      | zero => simp [List.enumFrom]
      | succ m =>
          have hm : m < xs.length := by simpa using hj
          have harith : n + 1 + m = n + (m + 1) := by omega
          simp [List.enumFrom, ih (n + 1) m hm, harith]

/-! Claim C10. -/

/-- C10: the assembly loop enumerates the sorted post-truncation sequence
with the 1-based counter (`runMain` starts `assembleLoop` at `1`), the
slot at 0-based position `j` is processed with counter `1 + j`, and for a
record lacking an `index` field the clip-lookup key is exactly that
counter — so the clip resolved for such records depends on the slot's
position in the sorted sequence, not on the record itself. -/
theorem positional_clip_key (env : Env) (sr T : ℕ) (mrs mas : ℚ)
    (t0 : List ℚ) (segs : List Record) :
    (assembleLoop env sr T mrs mas t0 1 segs =
      assembleEnum env sr T mrs mas t0 (List.enumFrom 1 segs))
    ∧ (∀ j (hj : j < segs.length),
        (List.enumFrom 1 segs)[j]? = some (1 + j, segs.get ⟨j, hj⟩))
    ∧ (∀ j (hj : j < segs.length),
        findKey (segs.get ⟨j, hj⟩) "index" = none →
        clipKeyUsed (segs.get ⟨j, hj⟩) (1 + j) = .ok ((1 + j : ℕ) : ℤ)) := by
  refine ⟨assembleLoop_eq_enum env sr T mrs mas t0 1 segs,
    fun j hj => enumFrom_getElem 1 segs j hj, ?_⟩
  intro j hj h
  simp only [List.get_eq_getElem] at h
  simp [clipKeyUsed, h]

/-- Witness for C10: the index-less record at position 0 resolves its clip
with key 1. -/
theorem positional_clip_key_witness : clipKeyUsed recC8 1 = .ok 1 :=
  (positional_clip_key envEmpty 1 3 (2/10) (4/10) [] [recC8]).2.2 0
    (by decide) (by decide)

/-! Helper lemmas about the record loop and the sort. -/

theorem mutateAll_length (l l' : List Record) (h : mutateAll l = some l') :
    l'.length = l.length := by
  induction l generalizing l' with
  | nil =>
      simp [mutateAll] at h
      subst h; rfl
  | cons x xs ih =>
      unfold mutateAll at h
      cases hp : processRecord x <;> cases hm : mutateAll xs <;>
        simp [hp, hm] at h
      subst h
      simp [ih _ hm]

theorem mutateAll_take (inputs l' : List Record) (n : ℕ)
    (h : mutateAll inputs = some l') :
    mutateAll (inputs.take n) = some (l'.take n) := by
  induction inputs generalizing l' n with
  | nil =>
      simp [mutateAll] at h
      subst h; simp [mutateAll]
  | cons x xs ih =>
      unfold mutateAll at h
      cases hp : processRecord x <;> cases hm : mutateAll xs <;>
        simp [hp, hm] at h
      subst h
      cases n with
      | zero => simp [mutateAll]
      | succ m => simp [mutateAll, hp, ih _ m hm]

theorem mutateAll_get (l l' : List Record) (h : mutateAll l = some l')
    (j : ℕ) (hj : j < l.length) (hj' : j < l'.length) :
    ∃ s e, get_slot_times (l.get ⟨j, hj⟩) = some (s, e) ∧
      l'.get ⟨j, hj'⟩ =
        setKey (setKey (setKey (l.get ⟨j, hj⟩) "_start_sec" (.float s))
          "_end_sec" (.float e)) "_duration_sec" (.float (max 0 (e - s))) := by
  induction l generalizing l' j with
  | nil => exact absurd hj (by simp)
  | cons x xs ih =>
      unfold mutateAll at h
      cases hp : processRecord x <;> cases hm : mutateAll xs <;>
        simp [hp, hm] at h
      subst h
      cases j with
      | zero =>
          unfold processRecord at hp
          cases hg : get_slot_times x <;> rw [hg] at hp
          · exact Option.noConfusion hp
          · rename_i x2 rest2 p
            obtain ⟨s, e⟩ := p
            injection hp with hp
            exact ⟨s, e, hg, hp.symm⟩
      | succ m =>
          have hjx : m < xs.length := by simpa using hj
          rename_i x2 rest2
          have hjr : m < rest2.length := by simpa using hj'
          simpa using ih rest2 hm m hjx hjr

theorem findKey_setKey (seg : Record) (key k' : String) (v : PyVal) :
    findKey (setKey seg key v) k' =
      if k' = key then some v else findKey seg k' := by
  induction seg with
  | nil =>
      by_cases h : k' = key
      · subst h; simp [setKey, findKey]
      · simp [setKey, findKey, h, Ne.symm h]
  | cons p rest ih =>
      obtain ⟨k0, w⟩ := p
      by_cases h0 : k0 = key
      · subst h0
        by_cases h' : k' = k0
        · subst h'; simp [setKey, findKey]
        · simp [setKey, findKey, h', Ne.symm h']
      · by_cases h' : k' = key
        · subst h'
          have hne : k0 ≠ k' := fun hc => h0 hc
          simp [setKey, findKey, h0, hne, ih]
        · by_cases h'' : k0 = k'
          · subst h''
            simp [setKey, findKey, h0, h', ih]
          · simp [setKey, findKey, h0, h', h'', ih]

theorem mem_insertByStart {z x : Record} {l : List Record} :
    z ∈ insertByStart x l ↔ z = x ∨ z ∈ l := by
  induction l with
  | nil => simp [insertByStart]
  | cons y ys ih =>
      unfold insertByStart
      split
      · simp [ih]
        tauto
      · simp

theorem pairwise_insertByStart {x : Record} {l : List Record}
    (h : l.Pairwise fun a b => startKey a ≤ startKey b) :
    (insertByStart x l).Pairwise fun a b => startKey a ≤ startKey b := by
  induction l with
  | nil => simp [insertByStart]
  | cons y ys ih =>
      rcases List.pairwise_cons.mp h with ⟨hy, hys⟩
      unfold insertByStart
      split
      · rename_i hlt
        refine List.pairwise_cons.mpr ⟨?_, ih hys⟩
        intro z hz
        rcases mem_insertByStart.mp hz with rfl | hz2
        · exact le_of_lt hlt
        · exact hy z hz2
      · rename_i hnlt
        refine List.pairwise_cons.mpr ⟨?_, h⟩
        intro z hz
        rcases List.mem_cons.mp hz with rfl | hz2
        · exact le_of_not_lt hnlt
        · exact le_trans (le_of_not_lt hnlt) (hy z hz2)

theorem sorted_pySortByStart (l : List Record) :
    (pySortByStart l).Pairwise fun a b => startKey a ≤ startKey b := by
  induction l with
  | nil => simp [pySortByStart]
  | cons x xs ih => exact pairwise_insertByStart ih

theorem filter_insertByStart (x : Record) (l : List Record) (q : ℚ) :
    (insertByStart x l).filter (fun z => decide (startKey z = q)) =
      if startKey x = q then
        x :: l.filter (fun z => decide (startKey z = q))
      else l.filter (fun z => decide (startKey z = q)) := by
  induction l with
  | nil =>
      by_cases hx : startKey x = q <;> simp [insertByStart, hx]
  | cons y ys ih =>
      unfold insertByStart
      split
      · rename_i hlt
        by_cases hy : startKey y = q <;> by_cases hx : startKey x = q
        · exact absurd hlt (by rw [hy, hx]; exact lt_irrefl q)
        · simp [List.filter_cons, hy, hx, ih]
        · simp [List.filter_cons, hy, hx, ih]
        · simp [List.filter_cons, hy, hx, ih]
      · by_cases hx : startKey x = q <;> simp [List.filter_cons, hx]

theorem filter_pySortByStart (l : List Record) (q : ℚ) :
    (pySortByStart l).filter (fun z => decide (startKey z = q)) =
      l.filter (fun z => decide (startKey z = q)) := by
  induction l with
  | nil => rfl
  | cons x xs ih =>
      show (insertByStart x (pySortByStart xs)).filter _ = _
      rw [filter_insertByStart]
      by_cases hx : startKey x = q <;> simp [List.filter_cons, hx, ih]

/-! Claim C7. -/

/-- Counterexample for C7: on a two-record input whose first record starts
later (start 5) than its second (start 1), truncation to N = 1 retains the
late-starting first record — the code truncates before sorting — while the
spec's sort-then-take retains the earliest-starting one.  The two results
differ. -/
theorem truncate_before_sort_cex :
    processedSeq (some 1) c7Inputs = some [recC7aAug]
    ∧ specSortThenTruncate c7Inputs 1 = some [recC7bAug]
    ∧ startKey recC7aAug ≠ startKey recC7bAug
    ∧ processedSeq (some 1) c7Inputs ≠ specSortThenTruncate c7Inputs 1 := by
  have h1 : processedSeq (some 1) c7Inputs = some [recC7aAug] := by
    with_unfolding_all rfl
  have h2 : specSortThenTruncate c7Inputs 1 = some [recC7bAug] := by
    with_unfolding_all rfl
  have h3 : startKey recC7aAug ≠ startKey recC7bAug := by decide
  refine ⟨h1, h2, h3, ?_⟩
  rw [h1, h2]
  intro h
  injection h with h
  injection h with hd
  exact h3 (congrArg startKey hd)

/-- C7 amended: the `max_segments` truncation is a pure prefix operation on
the record list in input order, applied before sorting: the processed
sequence with truncation N equals the processed sequence of the input's
first N records, i.e. the sort of the time-augmented first N records of
the input (not the N earliest-starting slots). -/
theorem truncation_input_order (inputs : List Record) (n : ℕ) :
    processedSeq (some n) inputs = processedSeq none (inputs.take n)
    ∧ ∀ l', mutateAll inputs = some l' →
        processedSeq (some n) inputs = some (pySortByStart (l'.take n)) := by
  constructor
  · rfl
  · intro l' h
    simp [processedSeq, pyTruncate, mutateAll_take inputs l' n h]

theorem mutateAll_c7_isSome : (mutateAll c7Inputs).isSome = true := by decide

/-- Witness for C7 (amended): on the concrete two-record input, truncation
to 1 yields the sort of the first input record's augmented form. -/
theorem truncation_input_order_witness :
    processedSeq (some 1) c7Inputs =
      some (pySortByStart (((mutateAll c7Inputs).get mutateAll_c7_isSome).take 1)) :=
  (truncation_input_order c7Inputs 1).2
    ((mutateAll c7Inputs).get mutateAll_c7_isSome)
    (Option.some_get mutateAll_c7_isSome).symm

/-! Claim C8. -/

/-- Counterexample for C8: the record loop mutates the caller's records —
after processing, the record gained a `_start_sec` field it did not have
before, so the processed record is not the input record. -/
theorem records_mutated_cex :
    mutateAll [recC8] ≠ some [recC8]
    ∧ mutateAll [recC8] = some [recC8Aug]
    ∧ findKey recC8Aug "_start_sec" = some (.float 0)
    ∧ findKey recC8 "_start_sec" = none := by
  refine ⟨by decide, by with_unfolding_all rfl, by decide, by decide⟩

/-- C8 amended: building the processed sequence mutates each input record
by setting the three helper fields `_start_sec`, `_end_sec`,
`_duration_sec` (all other fields are untouched), keeps the input list's
length and order (record `j` of the result comes from record `j` of the
input), and sorts a separate list stably by start time: the result is
sorted by `startKey` ascending, and for every key value the records with
that start retain their relative input order. -/
theorem slot_build_sorted_stable (inputs l' : List Record)
    (h : mutateAll inputs = some l') :
    l'.length = inputs.length
    ∧ (∀ j (hj : j < inputs.length) (hj' : j < l'.length) (k : String),
        k ≠ "_start_sec" → k ≠ "_end_sec" → k ≠ "_duration_sec" →
        findKey (l'.get ⟨j, hj'⟩) k = findKey (inputs.get ⟨j, hj⟩) k)
    ∧ (pySortByStart l').Pairwise (fun a b => startKey a ≤ startKey b)
    ∧ ∀ q : ℚ, (pySortByStart l').filter (fun z => decide (startKey z = q)) =
        l'.filter (fun z => decide (startKey z = q)) := by
  refine ⟨mutateAll_length _ _ h, ?_, sorted_pySortByStart _,
    fun q => filter_pySortByStart _ q⟩
  intro j hj hj' k h1 h2 h3
  obtain ⟨s, e, hg, hrec⟩ := mutateAll_get inputs l' h j hj hj'
  rw [hrec, findKey_setKey, findKey_setKey, findKey_setKey]
  simp [h1, h2, h3]

theorem mutateAll_c8_isSome : (mutateAll [recC8]).isSome = true := by decide

/-- Witness for C8 (amended): the sorted processed sequence of the
one-record input is sorted by start key. -/
theorem slot_build_sorted_stable_witness :
    (pySortByStart ((mutateAll [recC8]).get mutateAll_c8_isSome)).Pairwise
      (fun a b => startKey a ≤ startKey b) :=
  (slot_build_sorted_stable [recC8]
    ((mutateAll [recC8]).get mutateAll_c8_isSome)
    (Option.some_get mutateAll_c8_isSome).symm).2.2.1

end AlignConcat

namespace AlignConcat

/-! Helper lemmas about slice writes. -/

theorem pyNormIdx_le (len : ℕ) (i : ℤ) : pyNormIdx len i ≤ len := by
  unfold pyNormIdx
  split
  · omega
  · exact Nat.min_le_right _ _

theorem setSlice_length (track : List ℚ) (a b : ℤ) (vals t' : List ℚ)
    (h : setSlice track a b vals = some t') : t'.length = track.length := by
  simp only [setSlice] at h
  split at h
  · rename_i hlen
    injection h with h
    subst h
    have h1 := pyNormIdx_le track.length a
    have h2 := pyNormIdx_le track.length b
    simp only [List.length_append, List.length_take, List.length_drop]
    omega
  · exact Option.noConfusion h

theorem list_getD_append_left (xs ys : List ℚ) (p : ℕ) (h : p < xs.length) :
    (xs ++ ys).getD p 0 = xs.getD p 0 := by
  induction xs generalizing p with
  | nil => simp at h
  | cons x xs ih =>
      cases p with
      | zero => rfl
      | succ m =>
          have hm : m < xs.length := by simpa using h
          simpa [List.getD_cons_succ] using ih m hm

theorem list_getD_append_right (xs ys : List ℚ) (p : ℕ) (h : xs.length ≤ p) :
    (xs ++ ys).getD p 0 = ys.getD (p - xs.length) 0 := by
  induction xs generalizing p with
  | nil => simp
  | cons x xs ih =>
      cases p with
      | zero => simp at h
      | succ m =>
          have hm : xs.length ≤ m := by simpa using h
          simpa [List.getD_cons_succ] using ih m hm

theorem list_getD_take (l : List ℚ) (n p : ℕ) (h : p < n) :
    (l.take n).getD p 0 = l.getD p 0 := by
  induction l generalizing n p with
  | nil => simp
  | cons x xs ih =>
      cases n with
      | zero => omega
      | succ m =>
          cases p with
          | zero => rfl
          | succ pp => simpa [List.getD_cons_succ] using ih m pp (by omega)

theorem list_getD_drop (l : List ℚ) (n p : ℕ) :
    (l.drop n).getD p 0 = l.getD (n + p) 0 := by
  induction l generalizing n with
  | nil => simp
  | cons x xs ih =>
      cases n with
      | zero => simp
      | succ m => simpa [List.getD_cons_succ, Nat.succ_add] using ih m

theorem setSlice_getD (track : List ℚ) (a b : ℤ) (vals t' : List ℚ)
    (h : setSlice track a b vals = some t') (p : ℕ) (hp : p < track.length) :
    t'.getD p 0 =
      if pyNormIdx track.length a ≤ p ∧
          p < pyNormIdx track.length a + vals.length
      then vals.getD (p - pyNormIdx track.length a) 0
      else track.getD p 0 := by
  simp only [setSlice] at h
  split at h
  case isFalse => exact Option.noConfusion h
  case isTrue hlen =>
  injection h with h
  subst h
  rw [List.append_assoc]
  have hna_le : pyNormIdx track.length a ≤ track.length := pyNormIdx_le _ _
  have hnb_le : pyNormIdx track.length b ≤ track.length := pyNormIdx_le _ _
  have htake : (track.take (pyNormIdx track.length a)).length
      = pyNormIdx track.length a := by
    simp
    omega
  by_cases hcase : pyNormIdx track.length a ≤ p ∧
      p < pyNormIdx track.length a + vals.length
  · rw [if_pos hcase]
    rw [list_getD_append_right _ _ p (by rw [htake]; omega), htake]
    exact list_getD_append_left _ _ _ (by omega)
  · rw [if_neg hcase]
    by_cases hlt : p < pyNormIdx track.length a
    · rw [list_getD_append_left _ _ p (by rw [htake]; exact hlt)]
      exact list_getD_take _ _ _ hlt
    · have hge : pyNormIdx track.length a + vals.length ≤ p := by omega
      rw [list_getD_append_right _ _ p (by rw [htake]; omega), htake]
      rw [list_getD_append_right _ _ _ (by omega)]
      rw [list_getD_drop]
      congr 1
      omega

/-! Helper lemmas about one loop iteration. -/

theorem processSlot_cases (env : Env) (sr T : ℕ) (mrs mas : ℚ)
    (track : List ℚ) (i : ℕ) (seg : Record) (t2 : List ℚ)
    (h : processSlot env sr T mrs mas track i seg = .ok t2) :
    ∃ pl, slotPlan env sr T mrs mas i seg = .ok pl ∧
      ((pl = none ∧ t2 = track) ∨
        ∃ a b v, pl = some (a, b, v) ∧ setSlice track a b v = some t2) := by
  cases hsp : slotPlan env sr T mrs mas i seg with
  | error e => simp [processSlot, hsp] at h
  | ok pl =>
      cases pl with
      | none =>
          simp [processSlot, hsp] at h
          exact ⟨none, rfl, Or.inl ⟨rfl, h.symm⟩⟩
      | some abv =>
          obtain ⟨a, b, v⟩ := abv
          cases hss : setSlice track a b v with
          | none => simp [processSlot, hsp, hss] at h
          | some t3 =>
              simp [processSlot, hsp, hss] at h
              exact ⟨some (a, b, v), rfl,
                Or.inr ⟨a, b, v, rfl, by rw [hss, h]⟩⟩

theorem processSlot_length (env : Env) (sr T : ℕ) (mrs mas : ℚ)
    (track : List ℚ) (i : ℕ) (seg : Record) (t2 : List ℚ)
    (h : processSlot env sr T mrs mas track i seg = .ok t2) :
    t2.length = track.length := by
  obtain ⟨pl, hpl, hc⟩ := processSlot_cases env sr T mrs mas track i seg t2 h
  rcases hc with ⟨_, rfl⟩ | ⟨a, b, v, _, hss⟩
  · rfl
  · exact setSlice_length _ _ _ _ _ hss

theorem processSlot_getD_untouched (env : Env) (sr T : ℕ) (mrs mas : ℚ)
    (track : List ℚ) (i : ℕ) (seg : Record) (t2 : List ℚ) (pos : ℕ)
    (hT : track.length = T)
    (h : processSlot env sr T mrs mas track i seg = .ok t2)
    (hnw : ∀ pl, slotPlan env sr T mrs mas i seg = .ok pl →
      ¬ writesAt T pl pos)
    (hp : pos < T) :
    t2.getD pos 0 = track.getD pos 0 := by
  obtain ⟨pl, hpl, hc⟩ := processSlot_cases env sr T mrs mas track i seg t2 h
  rcases hc with ⟨_, rfl⟩ | ⟨a, b, v, rfl, hss⟩
  · rfl
  · rw [setSlice_getD track a b v t2 hss pos (by omega), if_neg]
    have hnw2 := hnw _ hpl
    subst hT
    simpa [writesAt, writeInterval] using hnw2

theorem processSlot_getD_writes (env : Env) (sr T : ℕ) (mrs mas : ℚ)
    (track : List ℚ) (i : ℕ) (seg : Record) (t2 : List ℚ) (pos : ℕ)
    (a b : ℤ) (v : List ℚ) (hT : track.length = T)
    (h : processSlot env sr T mrs mas track i seg = .ok t2)
    (hpl : slotPlan env sr T mrs mas i seg = .ok (some (a, b, v)))
    (hw : writesAt T (some (a, b, v)) pos)
    (hp : pos < T) :
    t2.getD pos 0 = v.getD (pos - pyNormIdx T a) 0 := by
  obtain ⟨pl, hpl2, hc⟩ := processSlot_cases env sr T mrs mas track i seg t2 h
  have hple : pl = some (a, b, v) := by
    have := hpl2.symm.trans hpl
    injection this
  subst hple
  rcases hc with ⟨hc1, _⟩ | ⟨a', b', v', hpl', hss⟩
  · exact Option.noConfusion hc1
  · have h3 : a' = a ∧ b' = b ∧ v' = v := by
      injection hpl' with h2
      exact ⟨(congrArg Prod.fst h2).symm, (congrArg (fun z => z.2.1) h2).symm,
        (congrArg (fun z => z.2.2) h2).symm⟩
    obtain ⟨ha, hb, hv⟩ := h3
    rw [ha, hb, hv] at hss
    rw [setSlice_getD track a b v t2 hss pos (by omega), if_pos]
    · subst hT; rfl
    · subst hT
      simpa [writesAt, writeInterval] using hw

/-! Loop-level last-writer characterisation. -/

theorem assembleLoop_getD_untouched (env : Env) (sr T : ℕ) (mrs mas : ℚ)
    (segs : List Record) :
    ∀ (i0 : ℕ) (t0 t : List ℚ), t0.length = T →
    assembleLoop env sr T mrs mas t0 i0 segs = .ok t →
    ∀ pos, pos < T →
    (∀ m (hm : m < segs.length) pl,
      slotPlan env sr T mrs mas (i0 + m) (segs.get ⟨m, hm⟩) = .ok pl →
      ¬ writesAt T pl pos) →
    t.getD pos 0 = t0.getD pos 0 := by
  induction segs with
  | nil =>
      intro i0 t0 t h0 h pos hp hnw
      injection h with h
      rw [← h]
  | cons x xs ih =>
      intro i0 t0 t h0 h pos hp hnw
      unfold assembleLoop at h
      cases hps : processSlot env sr T mrs mas t0 i0 x with
      | error e => rw [hps] at h; exact Except.noConfusion h
      | ok t1 =>
          rw [hps] at h
          have h1 : t1.length = T :=
            (processSlot_length env sr T mrs mas t0 i0 x t1 hps).trans h0
          have hx : ∀ pl, slotPlan env sr T mrs mas i0 x = .ok pl →
              ¬ writesAt T pl pos := by
            intro pl hpl
            refine hnw 0 (by simp) pl ?_
            simpa using hpl
          have hstep : t1.getD pos 0 = t0.getD pos 0 :=
            processSlot_getD_untouched env sr T mrs mas t0 i0 x t1 pos h0 hps
              hx hp
          have hrest : t.getD pos 0 = t1.getD pos 0 := by
            refine ih (i0 + 1) t1 t h1 h pos hp ?_
            intro m hm pl hpl
            have hm' : m + 1 < (x :: xs).length := by simpa using hm
            refine hnw (m + 1) hm' pl ?_
            have harith : i0 + 1 + m = i0 + (m + 1) := by omega
            simpa [harith] using hpl
          rw [hrest, hstep]

theorem assembleLoop_getD_lastWrite (env : Env) (sr T : ℕ) (mrs mas : ℚ)
    (segs : List Record) :
    ∀ (i0 : ℕ) (t0 t : List ℚ), t0.length = T →
    assembleLoop env sr T mrs mas t0 i0 segs = .ok t →
    ∀ pos, pos < T →
    ∀ k (hk : k < segs.length) (a b : ℤ) (v : List ℚ),
    slotPlan env sr T mrs mas (i0 + k) (segs.get ⟨k, hk⟩) = .ok (some (a, b, v)) →
    writesAt T (some (a, b, v)) pos →
    (∀ m (hm : m < segs.length), k < m → ∀ pl,
      slotPlan env sr T mrs mas (i0 + m) (segs.get ⟨m, hm⟩) = .ok pl →
      ¬ writesAt T pl pos) →
    t.getD pos 0 = v.getD (pos - pyNormIdx T a) 0 := by
  induction segs with
  | nil =>
      intro i0 t0 t h0 h pos hp k hk
      exact absurd hk (by simp)
  | cons x xs ih =>
      intro i0 t0 t h0 h pos hp k hk a b v hplk hw hafter
      unfold assembleLoop at h
      cases hps : processSlot env sr T mrs mas t0 i0 x with
      | error e => rw [hps] at h; exact Except.noConfusion h
      | ok t1 =>
          rw [hps] at h
          have h1 : t1.length = T :=
            (processSlot_length env sr T mrs mas t0 i0 x t1 hps).trans h0
          cases k with
          | zero =>
              have hstep : t1.getD pos 0 = v.getD (pos - pyNormIdx T a) 0 :=
                processSlot_getD_writes env sr T mrs mas t0 i0 x t1 pos a b v
                  h0 hps (by simpa using hplk) hw hp
              have hrest : t.getD pos 0 = t1.getD pos 0 := by
                refine assembleLoop_getD_untouched env sr T mrs mas xs (i0 + 1)
                  t1 t h1 h pos hp ?_
                intro m hm pl hpl
                have hm' : m + 1 < (x :: xs).length := by simpa using hm
                refine hafter (m + 1) hm' (by omega) pl ?_
                have harith : i0 + 1 + m = i0 + (m + 1) := by omega
                simpa [harith] using hpl
              rw [hrest, hstep]
          | succ kk =>
              have hkk : kk < xs.length := by simpa using hk
              refine ih (i0 + 1) t1 t h1 h pos hp kk hkk a b v ?_ hw ?_
              · have harith : i0 + (kk + 1) = i0 + 1 + kk := by omega
                simpa [harith] using hplk
              · intro m hm hlt pl hpl
                have hm' : m + 1 < (x :: xs).length := by simpa using hm
                refine hafter (m + 1) hm' (by omega) pl ?_
                have harith : i0 + 1 + m = i0 + (m + 1) := by omega
                simpa [harith] using hpl

/-! Claim C6. -/

/-- C6: later slot wins on overlaps.  For two slots of the processed
sequence whose pending write windows both cover sample `pos`, with the
second coming later in timeline (processing) order and no slot after it
writing `pos`, the assembled track holds exactly the later slot's aligned
buffer sample at `pos` — the earlier slot's contribution is overwritten,
not mixed or averaged. -/
theorem overlap_later_wins (env : Env) (sr T : ℕ) (mrs mas : ℚ)
    (segs : List Record) (t0 t : List ℚ) (h0 : t0.length = T)
    (hrun : assembleLoop env sr T mrs mas t0 1 segs = .ok t)
    (j k : ℕ) (hj : j < segs.length) (hk : k < segs.length) (hjk : j < k)
    (aj bj : ℤ) (vj : List ℚ) (ak bk : ℤ) (vk : List ℚ)
    (hplj : slotPlan env sr T mrs mas (1 + j) (segs.get ⟨j, hj⟩)
      = .ok (some (aj, bj, vj)))
    (hplk : slotPlan env sr T mrs mas (1 + k) (segs.get ⟨k, hk⟩)
      = .ok (some (ak, bk, vk)))
    (pos : ℕ) (hpos : pos < T)
    (hwj : writesAt T (some (aj, bj, vj)) pos)
    (hwk : writesAt T (some (ak, bk, vk)) pos)
    (hafter : ∀ m (hm : m < segs.length), k < m → ∀ pl,
      slotPlan env sr T mrs mas (1 + m) (segs.get ⟨m, hm⟩) = .ok pl →
      ¬ writesAt T pl pos) :
    t.getD pos 0 = vk.getD (pos - pyNormIdx T ak) 0 :=
  assembleLoop_getD_lastWrite env sr T mrs mas segs 1 t0 t h0 hrun pos hpos
    k hk ak bk vk hplk hwk hafter

/-- Witness for C6: two slots [0,4) and [2,6) on a ten-sample track at
1 Hz, with clips of constant value 1 and 2; at overlapping position 3 the
assembled track equals the later slot's sample. -/
theorem overlap_later_wins_witness :
    ([1, 1, 2, 2, 2, 2, 0, 0, 0, 0] : List ℚ).getD 3 0 =
      ([2, 2, 2, 2] : List ℚ).getD (3 - pyNormIdx 10 2) 0 :=
  overlap_later_wins envTwo 1 10 (2/10) (4/10) [recW1, recW2]
    (List.replicate 10 0) [1, 1, 2, 2, 2, 2, 0, 0, 0, 0] (by decide)
    (by with_unfolding_all rfl)
    0 1 (by decide) (by decide) (by decide)
    0 4 [1, 1, 1, 1] 2 6 [2, 2, 2, 2]
    (by with_unfolding_all rfl) (by with_unfolding_all rfl)
    3 (by decide)
    (by decide) (by decide)
    (fun m hm hlt _ _ => absurd hlt (by simp at hm; omega))

end AlignConcat

namespace AlignConcat

/-! Helper lemmas for graceful degradation (claim C2). -/

theorem pySliceTo_length (l : List ℚ) (k : ℤ) :
    (pySliceTo l k).length = pyNormIdx l.length k := by
  simp only [pySliceTo, List.length_take]
  exact Nat.min_eq_left (pyNormIdx_le _ _)

theorem setSlice_some (track : List ℚ) (a b : ℤ) (v : List ℚ) (T : ℕ)
    (hT : track.length = T) (h0a : 0 ≤ a) (hab : a ≤ b) (hbT : b ≤ (T : ℤ))
    (hv : v.length = (b - a).toNat) :
    ∃ t2, setSlice track a b v = some t2 := by
  have hcond : v.length =
      pyNormIdx track.length b - pyNormIdx track.length a := by
    unfold pyNormIdx
    rw [if_neg (by omega), if_neg (by omega)]
    subst hT
    rw [Nat.min_eq_left (by omega), Nat.min_eq_left (by omega)]
    omega
  refine ⟨track.take (pyNormIdx track.length a) ++ v ++
    track.drop (pyNormIdx track.length a + v.length), ?_⟩
  simp only [setSlice]
  rw [if_pos hcond]

theorem clipKeyUsed_ok (seg : Record) (i : ℕ) (h : intIndexOk seg) :
    ∃ kk, clipKeyUsed seg i = .ok kk := by
  rcases h with h | ⟨n, h⟩
  · exact ⟨(i : ℤ), by simp [clipKeyUsed, h]⟩
  · exact ⟨n, by simp [clipKeyUsed, h]⟩

theorem slotPlan_ok_of (env : Env) (sr T : ℕ) (mrs mas : ℚ) (i : ℕ)
    (seg : Record) (hok : slotOk sr T seg)
    (hfail : ∀ kk : ℤ, env.lookup kk ≠ .failed) :
    ∃ pl, slotPlan env sr T mrs mas i seg = .ok pl ∧
      ((∀ kk : ℤ, env.lookup kk = .missing) → pl = none) ∧
      (∀ a b v, pl = some (a, b, v) →
        0 ≤ a ∧ a ≤ b ∧ b ≤ (T : ℤ) ∧ v.length = (b - a).toNat) := by
  obtain ⟨⟨s, hs1, hs2, hs3⟩, ⟨e, he1⟩, ⟨d, hd1⟩, hidx⟩ := hok
  obtain ⟨kk, hkey⟩ := clipKeyUsed_ok seg i hidx
  simp only [slotPlan, hs1, he1, hd1]
  split
  · exact ⟨none, rfl, fun _ => rfl, fun a b v hc => Option.noConfusion hc⟩
  · rename_i hdeg
    simp only [hkey]
    cases hlook : env.lookup kk with
    | missing =>
        exact ⟨none, rfl, fun _ => rfl, fun a b v hc => Option.noConfusion hc⟩
    | failed => exact absurd hlook (hfail kk)
    | ok audio =>
        split
        · rename_i heq
          exact ClipResult.noConfusion heq
        · rename_i heq
          exact ClipResult.noConfusion heq
        · rename_i audio2 heq
          injection heq with heq
          subst heq
          split
          · exact ⟨none, rfl, fun _ => rfl,
              fun a b v hc => Option.noConfusion hc⟩
          · refine ⟨_, rfl, ?_, ?_⟩
            · intro hall
              exact absurd ((hall kk).symm.trans hlook)
                (fun hc => ClipResult.noConfusion hc)
            · intro a b v hc
              injection hc with hc
              have ha := congrArg Prod.fst hc
              have hb := congrArg (fun z : ℤ × ℤ × List ℚ => z.2.1) hc
              have hv2 := congrArg (fun z : ℤ × ℤ × List ℚ => z.2.2) hc
              dsimp only at ha hb hv2
              subst ha
              subst hb
              subst hv2
              refine ⟨hs2, ?_, ?_, ?_⟩
              · omega
              · omega
              · rw [pySliceTo_length, alignClip_length]
                unfold pyNormIdx
                rw [if_neg (by omega)]
                rw [Nat.min_eq_left (by omega)]

theorem processSlot_ok (env : Env) (sr T : ℕ) (mrs mas : ℚ)
    (track : List ℚ) (i : ℕ) (seg : Record) (hT : track.length = T)
    (hok : slotOk sr T seg)
    (hfail : ∀ kk : ℤ, env.lookup kk ≠ .failed) :
    ∃ t2, processSlot env sr T mrs mas track i seg = .ok t2 ∧
      t2.length = T ∧
      ((∀ kk : ℤ, env.lookup kk = .missing) → t2 = track) := by
  obtain ⟨pl, hpl, hmiss, hbounds⟩ :=
    slotPlan_ok_of env sr T mrs mas i seg hok hfail
  cases pl with
  | none => exact ⟨track, by simp [processSlot, hpl], hT, fun _ => rfl⟩
  | some abv =>
      obtain ⟨a, b, v⟩ := abv
      obtain ⟨h0a, hab, hbT, hv⟩ := hbounds a b v rfl
      obtain ⟨t2, ht2⟩ := setSlice_some track a b v T hT h0a hab hbT hv
      refine ⟨t2, by simp [processSlot, hpl, ht2],
        (setSlice_length _ _ _ _ _ ht2).trans hT, ?_⟩
      intro hall
      exact Option.noConfusion (hmiss hall)

theorem assembleLoop_ok (env : Env) (sr T : ℕ) (mrs mas : ℚ)
    (segs : List Record) :
    ∀ (i0 : ℕ) (track : List ℚ), track.length = T →
    (∀ seg ∈ segs, slotOk sr T seg) →
    (∀ kk : ℤ, env.lookup kk ≠ .failed) →
    ∃ t, assembleLoop env sr T mrs mas track i0 segs = .ok t ∧
      t.length = T ∧
      ((∀ kk : ℤ, env.lookup kk = .missing) → t = track) := by
  induction segs with
  | nil => intro i0 track hT _ _; exact ⟨track, rfl, hT, fun _ => rfl⟩
  | cons x xs ih =>
      intro i0 track hT hprops hfail
      obtain ⟨t1, h1, h1T, h1miss⟩ :=
        processSlot_ok env sr T mrs mas track i0 x hT
          (hprops x (List.mem_cons_self x xs)) hfail
      obtain ⟨t, ht, htT, htmiss⟩ := ih (i0 + 1) t1 h1T
        (fun seg hs => hprops seg (List.mem_cons_of_mem x hs)) hfail
      refine ⟨t, ?_, htT, ?_⟩
      · unfold assembleLoop
        rw [h1]
        exact ht
      · intro hall
        rw [htmiss hall, h1miss hall]

theorem mem_pySortByStart {z : Record} {l : List Record} :
    z ∈ pySortByStart l ↔ z ∈ l := by
  induction l with
  | nil => simp [pySortByStart]
  | cons x xs ih => simp [pySortByStart, mem_insertByStart, ih]

theorem mutateAll_mem (l l' : List Record) (h : mutateAll l = some l')
    (y : Record) (hy : y ∈ l') : ∃ x ∈ l, processRecord x = some y := by
  induction l generalizing l' with
  | nil =>
      simp [mutateAll] at h
      subst h
      simp at hy
  | cons x xs ih =>
      unfold mutateAll at h
      cases hp : processRecord x with
      | none => rw [hp] at h; exact Option.noConfusion h
      | some x2 =>
          cases hm : mutateAll xs with
          | none => rw [hp, hm] at h; exact Option.noConfusion h
          | some rest2 =>
              rw [hp, hm] at h
              injection h with h
              subst h
              rcases List.mem_cons.mp hy with rfl | hy2
              · exact ⟨x, List.mem_cons_self x xs, hp⟩
              · obtain ⟨x3, hx3, hpx3⟩ := ih rest2 hm hy2
                exact ⟨x3, List.mem_cons_of_mem x hx3, hpx3⟩

theorem processRecord_slotOk (sr T : ℕ) (x y : Record)
    (hp : processRecord x = some y) (hr : startInRange sr T x)
    (hidx : intIndexOk x) : slotOk sr T y := by
  unfold processRecord at hp
  cases hg : get_slot_times x with
  | none => rw [hg] at hp; exact Option.noConfusion hp
  | some p =>
      rw [hg] at hp
      obtain ⟨s, e⟩ := p
      injection hp with hp
      subst hp
      obtain ⟨hr1, hr2⟩ := hr s e hg
      refine ⟨⟨s, ?_, hr1, hr2⟩, ⟨e, ?_⟩, ⟨max 0 (e - s), ?_⟩, ?_⟩
      · unfold getFloatField
        rw [findKey_setKey, if_neg (by decide), findKey_setKey,
          if_neg (by decide), findKey_setKey, if_pos rfl]
      · unfold getFloatField
        rw [findKey_setKey, if_neg (by decide), findKey_setKey, if_pos rfl]
      · unfold getFloatField
        rw [findKey_setKey, if_pos rfl]
      · unfold intIndexOk at hidx ⊢
        rw [findKey_setKey, if_neg (by decide), findKey_setKey,
          if_neg (by decide), findKey_setKey, if_neg (by decide)]
        exact hidx

/-! Claim C2. -/

/-- Counterexample for C2: a one-slot input whose slot list loads and
sorts successfully (`processedSeq` is `some`), whose clip file exists but
is unreadable (the loader raises): the per-slot decode failure is not
downgraded — it propagates out of the assembly loop and aborts the whole
run instead of leaving the slot silent. -/
theorem decode_failure_aborts_cex :
    (processedSeq none [recA]).isSome = true
    ∧ runMain envFail 1 10 (2/10) (4/10) none [recA]
        = .error "ClipDecodeFailure" :=
  ⟨by decide, by with_unfolding_all rfl⟩

/-- C2 amended: once the slot list has been loaded and sorted, slots with
missing or empty clips never abort the run: provided no clip decode
raises (`ClipDecodeFailure` is NOT caught by the code and would abort),
every record's `index` field (if present) is an int, and every slot's
start sample falls inside the track, the run completes with a track of
exactly `total_samples` samples, and if every clip is missing the track
is all silence. -/
theorem assembly_benign_slots_complete (env : Env) (sr T : ℕ)
    (mrs mas : ℚ) (maxSeg : Option ℕ) (inputs processed : List Record)
    (h1 : processedSeq maxSeg inputs = some processed)
    (hfail : ∀ kk : ℤ, env.lookup kk ≠ .failed)
    (hrec : ∀ seg ∈ pyTruncate inputs maxSeg,
      intIndexOk seg ∧ startInRange sr T seg) :
    isOkB (runMain env sr T mrs mas maxSeg inputs) = true
    ∧ ∀ t, runMain env sr T mrs mas maxSeg inputs = .ok t →
        t.length = T ∧
        ((∀ kk : ℤ, env.lookup kk = .missing) →
          t = List.replicate T 0) := by
  have hmut : ∃ l', mutateAll (pyTruncate inputs maxSeg) = some l' ∧
      processed = pySortByStart l' := by
    unfold processedSeq at h1
    cases hm : mutateAll (pyTruncate inputs maxSeg) with
    | none => rw [hm] at h1; exact Option.noConfusion h1
    | some l' =>
        rw [hm] at h1
        injection h1 with h1
        exact ⟨l', rfl, h1.symm⟩
  obtain ⟨l', hm, hproc⟩ := hmut
  have hall : ∀ seg ∈ processed, slotOk sr T seg := by
    intro seg hs
    rw [hproc] at hs
    obtain ⟨x, hx, hpx⟩ := mutateAll_mem _ _ hm seg (mem_pySortByStart.mp hs)
    exact processRecord_slotOk sr T x seg hpx (hrec x hx).2 (hrec x hx).1
  obtain ⟨t, ht, htT, htmiss⟩ := assembleLoop_ok env sr T mrs mas processed 1
    (List.replicate T 0) (by simp) hall hfail
  have hrm : runMain env sr T mrs mas maxSeg inputs
      = .ok (finalize t T) := by
    unfold runMain
    simp only [h1]
    rw [ht]
  refine ⟨by rw [hrm]; rfl, ?_⟩
  intro t2 ht2
  rw [hrm] at ht2
  injection ht2 with ht2
  subst ht2
  refine ⟨finalize_length t T, ?_⟩
  intro hmiss
  rw [htmiss hmiss]
  unfold finalize
  rw [if_neg (by simp), if_neg (by simp)]

/-- Witness for C2 (amended): a benign run — empty slot set, all-missing
clip loader — completes without aborting. -/
theorem assembly_benign_slots_complete_witness :
    isOkB (runMain envEmpty 1 3 (2/10) (4/10) none []) = true :=
  (assembly_benign_slots_complete envEmpty 1 3 (2/10) (4/10) none [] []
    rfl (fun _ h => ClipResult.noConfusion h)
    (fun _ hs => absurd hs (by simp [pyTruncate]))).1

end AlignConcat
